import Mathlib

/-!
Verification of the `flatten` library (Go).

Shallow embedding of `flatten.go`: the `Flatten` / `FlattenString` entry
points, the recursive `flatten` traversal, the `SeparatorStyle` key-merging
policies, and the `isJsonMap` pre-check.  Go's dynamically typed
`interface{}` values (as produced by `encoding/json`) are modelled by the
inductive type `Json`; Go's `map[string]interface{}` is modelled by an
association list whose assignment operation `insertFM` has Go-map overwrite
semantics.  JSON numbers are opaque scalars to the flattener (copied
verbatim, never inspected), so their payload is modelled by `Int`; nothing
below depends on the numeric representation.
-/

namespace FlattenGo

/-- A dynamically typed value as produced by `json.Unmarshal` into
`interface{}`: a JSON mapping (`map[string]interface{}`), a sequence
(`[]interface{}`), or a scalar (string, number, boolean, null). -/
inductive Json where
  | null : Json
  | bool (b : Bool) : Json
  | str (s : String) : Json
  | num (n : Int) : Json
  | obj (fields : List (String × Json)) : Json
  | arr (elems : List Json) : Json

/-- A scalar is anything that is not a mapping and not a sequence — the
`default` case of the type switch in `assign` in `flatten.go`. -/
def Json.isScalar : Json → Bool
  | .obj _ => false
  | .arr _ => false
  | _ => true

/-- Go's `map[string]interface{}` result map, modelled as an association
list with unique keys maintained by `insertFM`. -/
abbrev FlatMap := List (String × Json)

/-- Go map assignment `flatMap[newKey] = v`: overwrite the binding if the
key is present, otherwise add a new binding. -/
def insertFM : FlatMap → String → Json → FlatMap
  | [], k, v => [(k, v)]
  | (k', v') :: rest, k, v =>
    if k' = k then (k, v) :: rest else (k', v') :: insertFM rest k v

/-- The `KeyMerger` interface of `flatten.go`: any pure function
`MergeKeys(top bool, key, subkey string) string` (cf. `FuncMerger`). -/
abbrev KeyMerger := Bool → String → String → String

/-- Structure `SeparatorStyle` of `flatten.go`: the Before/Middle/After strings. -/
structure SeparatorStyle where
  Before : String
  Middle : String
  After : String
deriving DecidableEq, Repr

/-- Method `SeparatorStyle.MergeKeys` from `flatten.go`:
root call returns `key + subkey`; otherwise
`key + style.Before + style.Middle + subkey + style.After`. -/
def SeparatorStyle.MergeKeys (style : SeparatorStyle) (top : Bool)
    (key subkey : String) : String :=
  if top then key ++ subkey
  else key ++ style.Before ++ style.Middle ++ subkey ++ style.After

/-- Preset `DotStyle = SeparatorStyle{Middle: "."}` (Go zero value "" elsewhere). -/
def DotStyle : SeparatorStyle := { Before := "", Middle := ".", After := "" }

/-- Preset `PathStyle = SeparatorStyle{Middle: "/"}`. -/
def PathStyle : SeparatorStyle := { Before := "", Middle := "/", After := "" }

/-- Preset `RailsStyle = SeparatorStyle{Before: "[", After: "]"}`. -/
def RailsStyle : SeparatorStyle := { Before := "[", Middle := "", After := "]" }

/-- Preset `UnderscoreStyle = SeparatorStyle{Middle: "_"}`. -/
def UnderscoreStyle : SeparatorStyle := { Before := "", Middle := "_", After := "" }

mutual
/-- The recursive `flatten` function of `flatten.go`.  It returns the
updated flat map (Go mutates `flatMap` in place) together with an error
flag: `true` models returning `NotValidInputError`, which happens exactly
when `nested` is neither a mapping nor a sequence.  Note that inside the
two `range` loops the Go code discards `assign`'s return value, so errors
from recursive calls are dropped (they cannot occur: `assign` only recurses
on mappings and sequences). -/
def flattenGo (km : KeyMerger) (top : Bool) (fm : FlatMap) (nested : Json)
    (pfx : String) : FlatMap × Bool :=
  match nested with
  | .obj fields => (flattenFields km top fm fields pfx, false)
  | .arr elems => (flattenElems km top fm elems pfx 0, false)
  | _ => (fm, true)
termination_by (sizeOf nested, 1)

/-- The `range` loop of `flatten` over a `map[string]interface{}`:
for each pair, `newKey := keyMerger.MergeKeys(top, prefix, k)` then
`assign(newKey, v)`.  Go map iteration order is unspecified; the model
iterates in list order. -/
def flattenFields (km : KeyMerger) (top : Bool) (fm : FlatMap)
    (fields : List (String × Json)) (pfx : String) : FlatMap :=
  match fields with
  | [] => fm
  | (k, v) :: rest => flattenFields km top (assignGo km fm (km top pfx k) v) rest pfx
termination_by (sizeOf fields, 0)

/-- The `range` loop of `flatten` over a `[]interface{}`: for element `i`,
`newKey := keyMerger.MergeKeys(top, prefix, strconv.Itoa(i))` then
`assign(newKey, v)`.  `i` is threaded explicitly, starting at 0. -/
def flattenElems (km : KeyMerger) (top : Bool) (fm : FlatMap)
    (elems : List Json) (pfx : String) (i : Nat) : FlatMap :=
  match elems with
  | [] => fm
  | v :: rest => flattenElems km top (assignGo km fm (km top pfx (Nat.repr i)) v) rest pfx (i + 1)
termination_by (sizeOf elems, 0)

/-- The `assign` closure of `flatten`: a mapping or sequence value is
recursed into with `top = false`; any other value is assigned into the flat
map.  The recursive call's error return is checked but the caller drops it
(and it is always `nil` here, since the value is a container). -/
def assignGo (km : KeyMerger) (fm : FlatMap) (newKey : String) (v : Json) : FlatMap :=
  match v with
  | .obj fields => (flattenGo km false fm (.obj fields) newKey).1
  | .arr elems => (flattenGo km false fm (.arr elems) newKey).1
  | _ => insertFM fm newKey v
termination_by (sizeOf v, 2)
end

/-- Function `Flatten` of `flatten.go`: builds a fresh flat map from a nested
`map[string]interface{}`; `none` models the `(nil, err)` return. -/
def Flatten (nested : List (String × Json)) (pfx : String) (km : KeyMerger) :
    Option FlatMap :=
  match flattenGo km true [] (.obj nested) pfx with
  | (fm, false) => some fm
  | (_, true) => none

/-! ## Collector form of the traversal

`entriesAssign`/`entriesFields`/`entriesElems` compute, as a list in
traversal order, the (flat key, scalar leaf) pairs that the traversal
assigns into the flat map.  The lemmas below show that the imperative
traversal equals folding Go-map assignment over this list, which is the
backbone of the invariant, cardinality and round-trip proofs. -/

mutual
/-- The pairs contributed by `assign(newKey, v)`: a container contributes
its recursive entries (with `top = false`), a scalar contributes itself. -/
def entriesAssign (km : KeyMerger) (newKey : String) (v : Json) :
    List (String × Json) :=
  match v with
  | .obj fields => entriesFields km false fields newKey
  | .arr elems => entriesElems km false elems newKey 0
  | _ => [(newKey, v)]
termination_by (sizeOf v, 1)

/-- Entries contributed by the mapping loop, in list order. -/
def entriesFields (km : KeyMerger) (top : Bool)
    (fields : List (String × Json)) (pfx : String) : List (String × Json) :=
  match fields with
  | [] => []
  | (k, v) :: rest =>
    entriesAssign km (km top pfx k) v ++ entriesFields km top rest pfx
termination_by (sizeOf fields, 0)

/-- Entries contributed by the sequence loop, indices from `i`. -/
def entriesElems (km : KeyMerger) (top : Bool) (elems : List Json)
    (pfx : String) (i : Nat) : List (String × Json) :=
  match elems with
  | [] => []
  | v :: rest =>
    entriesAssign km (km top pfx (Nat.repr i)) v ++ entriesElems km top rest pfx (i + 1)
termination_by (sizeOf elems, 0)
end

/-- Fold Go-map assignment over a list of pairs. -/
def insertAll (fm : FlatMap) (l : List (String × Json)) : FlatMap :=
  l.foldl (fun m p => insertFM m p.1 p.2) fm

/-- Returns `true` iff every value stored in the flat map is a scalar. -/
def allValuesScalar (fm : FlatMap) : Bool :=
  fm.all fun p => p.2.isScalar

mutual
/-- Number of scalar leaves of a value (an empty container has none). -/
def leafCount : Json → Nat
  | .obj fields => leafCountFields fields
  | .arr elems => leafCountElems elems
  | _ => 1
termination_by v => (sizeOf v, 1)

/-- Number of scalar leaves under a field list. -/
def leafCountFields : List (String × Json) → Nat
  | [] => 0
  | (_, v) :: rest => leafCount v + leafCountFields rest
termination_by fields => (sizeOf fields, 0)

/-- Number of scalar leaves under an element list. -/
def leafCountElems : List Json → Nat
  | [] => 0
  | v :: rest => leafCount v + leafCountElems rest
termination_by elems => (sizeOf elems, 0)
end

/-! ## The `FlattenString` text-form adapter

`json.Unmarshal` and `json.Marshal` are external collaborators
(`encoding/json`), so `FlattenStringGo` is parameterized by the
deserializer `unmarshal`; its result is the flat map prior to the final
`json.Marshal` step (text parsing and serialization themselves are outside
the flattener).  The `isJsonMap` pre-check regexp and the error paths are
taken from `flatten.go` verbatim. -/

/-- Go's RE2 character class `\s`, i.e. `[\t\n\f\r ]`, as matched by the
regexp `^\s*\{` of `flatten.go`. -/
def goRegexpSpace (c : Char) : Bool :=
  c = ' ' || c = '\t' || c = '\n' || c = '\x0c' || c = '\r'

/-- Matching `isJsonMap.MatchString(s)` for the anchored regexp `^\s*\{`: after
skipping leading whitespace the first character must be `{`. -/
def isJsonMap (s : String) : Bool :=
  match s.toList.dropWhile goRegexpSpace with
  | c :: _ => c = '{'
  | [] => false

/-- Outcome of `FlattenString`: either the flat map that gets serialized,
or one of the error returns of `flatten.go`. -/
inductive FlattenStringResult where
  /-- Successful return: the flat map handed to `json.Marshal`. -/
  | ok (fm : FlatMap) : FlattenStringResult
  /-- Error `NotValidJsonInputError` ("Not a valid input, must be a map"). -/
  | notValidJsonInputError : FlattenStringResult
  /-- An error propagated verbatim from `json.Unmarshal`. -/
  | unmarshalError : FlattenStringResult
  /-- Error `NotValidInputError` propagated from `Flatten` (never happens). -/
  | notValidInputError : FlattenStringResult

/-- Function `FlattenString` of `flatten.go`, parameterized by the external
deserializer: reject unless `isJsonMap` matches, then unmarshal, then
delegate to `Flatten`. -/
def FlattenStringGo (unmarshal : String → Option (List (String × Json)))
    (nestedstr pfx : String) (km : KeyMerger) : FlattenStringResult :=
  if !isJsonMap nestedstr then .notValidJsonInputError
  else
    match unmarshal nestedstr with
    | none => .unmarshalError
    | some nested =>
      match Flatten nested pfx km with
      | none => .notValidInputError
      | some fm => .ok fm

theorem insertAll_cons (fm : FlatMap) (k : String) (v : Json)
    (l : List (String × Json)) :
    insertAll fm ((k, v) :: l) = insertAll (insertFM fm k v) l := rfl

theorem insertAll_append (fm : FlatMap) (a b : List (String × Json)) :
    insertAll fm (a ++ b) = insertAll (insertAll fm a) b :=
  List.foldl_append _ _ a b

mutual
/-- Closure `assign` equals folding its entry list into the accumulator. -/
theorem assignGo_eq_insertAll (km : KeyMerger) (fm : FlatMap)
    (newKey : String) (v : Json) :
    assignGo km fm newKey v = insertAll fm (entriesAssign km newKey v) :=
  match v with
  | .obj fields => by
    simp only [assignGo, flattenGo, entriesAssign]
    exact flattenFields_eq_insertAll km false fm fields newKey
  | .arr elems => by
    simp only [assignGo, flattenGo, entriesAssign]
    exact flattenElems_eq_insertAll km false fm elems newKey 0
  | .null => by simp [assignGo, entriesAssign, insertAll]
  | .bool _ => by simp [assignGo, entriesAssign, insertAll]
  | .str _ => by simp [assignGo, entriesAssign, insertAll]
  | .num _ => by simp [assignGo, entriesAssign, insertAll]
termination_by (sizeOf v, 1)

/-- The mapping loop equals folding its entry list into the accumulator. -/
theorem flattenFields_eq_insertAll (km : KeyMerger) (top : Bool)
    (fm : FlatMap) (fields : List (String × Json)) (pfx : String) :
    flattenFields km top fm fields pfx = insertAll fm (entriesFields km top fields pfx) :=
  match fields with
  | [] => by simp [flattenFields, entriesFields, insertAll]
  | (k, v) :: rest => by
    rw [flattenFields, entriesFields, insertAll_append,
      ← assignGo_eq_insertAll km fm (km top pfx k) v]
    exact flattenFields_eq_insertAll km top (assignGo km fm (km top pfx k) v) rest pfx
termination_by (sizeOf fields, 0)

/-- The sequence loop equals folding its entry list into the accumulator. -/
theorem flattenElems_eq_insertAll (km : KeyMerger) (top : Bool)
    (fm : FlatMap) (elems : List Json) (pfx : String) (i : Nat) :
    flattenElems km top fm elems pfx i = insertAll fm (entriesElems km top elems pfx i) :=
  match elems with
  | [] => by simp [flattenElems, entriesElems, insertAll]
  | v :: rest => by
    rw [flattenElems, entriesElems, insertAll_append,
      ← assignGo_eq_insertAll km fm (km top pfx (Nat.repr i)) v]
    exact flattenElems_eq_insertAll km top (assignGo km fm (km top pfx (Nat.repr i)) v) rest pfx (i + 1)
termination_by (sizeOf elems, 0)
end

/-! ## Helper lemmas -/

/-- Closure `assign` on a scalar contributes exactly its own pair. -/
theorem entriesAssign_scalar (km : KeyMerger) (newKey : String) (v : Json)
    (hv : v.isScalar = true) : entriesAssign km newKey v = [(newKey, v)] := by
  cases v with
  | obj fields => simp [Json.isScalar] at hv
  | arr elems => simp [Json.isScalar] at hv
  | null => simp [entriesAssign]
  | bool b => simp [entriesAssign]
  | str s => simp [entriesAssign]
  | num n => simp [entriesAssign]

mutual
/-- Every entry contributed by `assign` carries a scalar value. -/
theorem entriesAssign_values_scalar (km : KeyMerger) (newKey : String) (v : Json) :
    ∀ p ∈ entriesAssign km newKey v, p.2.isScalar = true :=
  match v with
  | .obj fields => by
    simp only [entriesAssign]
    exact entriesFields_values_scalar km false fields newKey
  | .arr elems => by
    simp only [entriesAssign]
    exact entriesElems_values_scalar km false elems newKey 0
  | .null => by simp [entriesAssign, Json.isScalar]
  | .bool _ => by simp [entriesAssign, Json.isScalar]
  | .str _ => by simp [entriesAssign, Json.isScalar]
  | .num _ => by simp [entriesAssign, Json.isScalar]
termination_by (sizeOf v, 1)

/-- Every entry contributed by the mapping loop carries a scalar value. -/
theorem entriesFields_values_scalar (km : KeyMerger) (top : Bool)
    (fields : List (String × Json)) (pfx : String) :
    ∀ p ∈ entriesFields km top fields pfx, p.2.isScalar = true :=
  match fields with
  | [] => by simp [entriesFields]
  | (k, v) :: rest => by
    intro p hp
    rw [entriesFields] at hp
    rcases List.mem_append.mp hp with h | h
    · exact entriesAssign_values_scalar km (km top pfx k) v p h
    · exact entriesFields_values_scalar km top rest pfx p h
termination_by (sizeOf fields, 0)

/-- Every entry contributed by the sequence loop carries a scalar value. -/
theorem entriesElems_values_scalar (km : KeyMerger) (top : Bool)
    (elems : List Json) (pfx : String) (i : Nat) :
    ∀ p ∈ entriesElems km top elems pfx i, p.2.isScalar = true :=
  match elems with
  | [] => by simp [entriesElems]
  | v :: rest => by
    intro p hp
    rw [entriesElems] at hp
    rcases List.mem_append.mp hp with h | h
    · exact entriesAssign_values_scalar km (km top pfx (Nat.repr i)) v p h
    · exact entriesElems_values_scalar km top rest pfx (i + 1) p h
termination_by (sizeOf elems, 0)
end

mutual
/-- A value contributes exactly one entry per scalar leaf. -/
theorem entriesAssign_length (km : KeyMerger) (newKey : String) (v : Json) :
    (entriesAssign km newKey v).length = leafCount v :=
  match v with
  | .obj fields => by
    simp only [entriesAssign, leafCount]
    exact entriesFields_length km false fields newKey
  | .arr elems => by
    simp only [entriesAssign, leafCount]
    exact entriesElems_length km false elems newKey 0
  | .null => by simp [entriesAssign, leafCount]
  | .bool _ => by simp [entriesAssign, leafCount]
  | .str _ => by simp [entriesAssign, leafCount]
  | .num _ => by simp [entriesAssign, leafCount]
termination_by (sizeOf v, 1)

/-- A field list contributes exactly one entry per scalar leaf. -/
theorem entriesFields_length (km : KeyMerger) (top : Bool)
    (fields : List (String × Json)) (pfx : String) :
    (entriesFields km top fields pfx).length = leafCountFields fields :=
  match fields with
  | [] => by simp [entriesFields, leafCountFields]
  | (k, v) :: rest => by
    rw [entriesFields, List.length_append, leafCountFields,
      entriesAssign_length km (km top pfx k) v,
      entriesFields_length km top rest pfx]
termination_by (sizeOf fields, 0)

/-- An element list contributes exactly one entry per scalar leaf. -/
theorem entriesElems_length (km : KeyMerger) (top : Bool)
    (elems : List Json) (pfx : String) (i : Nat) :
    (entriesElems km top elems pfx i).length = leafCountElems elems :=
  match elems with
  | [] => by simp [entriesElems, leafCountElems]
  | v :: rest => by
    rw [entriesElems, List.length_append, leafCountElems,
      entriesAssign_length km (km top pfx (Nat.repr i)) v,
      entriesElems_length km top rest pfx (i + 1)]
termination_by (sizeOf elems, 0)
end

/-- Go-map assignment of an absent key appends the new binding. -/
theorem insertFM_of_not_mem (fm : FlatMap) (k : String) (v : Json)
    (h : k ∉ fm.map Prod.fst) : insertFM fm k v = fm ++ [(k, v)] := by
  induction fm with
  | nil => rfl
  | cons q rest ih =>
    obtain ⟨k', v'⟩ := q
    simp only [List.map_cons, List.mem_cons, not_or] at h
    rw [insertFM, if_neg (fun hh => h.1 hh.symm), ih h.2]
    rfl

/-- Folding assignments of pairwise-distinct keys, none already present,
appends the pairs in order. -/
theorem insertAll_of_disjoint (l : List (String × Json)) (fm : FlatMap)
    (hnd : (l.map Prod.fst).Nodup)
    (hdis : ∀ k ∈ l.map Prod.fst, k ∉ fm.map Prod.fst) :
    insertAll fm l = fm ++ l := by
  induction l generalizing fm with
  | nil => simp [insertAll]
  | cons q rest ih =>
    obtain ⟨k, v⟩ := q
    simp only [List.map_cons, List.nodup_cons] at hnd
    rw [insertAll_cons, insertFM_of_not_mem fm k v (hdis k (by simp))]
    rw [ih (fm ++ [(k, v)]) hnd.2 ?_]
    · simp
    · intro k' hk'
      simp only [List.map_append, List.mem_append, List.map_cons, List.map_nil,
        List.mem_singleton, not_or]
      refine ⟨hdis k' (by simp [hk']), fun hkk => hnd.1 (hkk ▸ hk')⟩

/-- Any pair in the flat map after an assignment was there before or is the
assigned pair. -/
theorem mem_insertFM (fm : FlatMap) (k : String) (v : Json) (p : String × Json)
    (hp : p ∈ insertFM fm k v) : p ∈ fm ∨ p = (k, v) := by
  induction fm with
  | nil =>
    rw [insertFM] at hp
    right
    simpa using hp
  | cons q rest ih =>
    obtain ⟨k', v'⟩ := q
    rw [insertFM] at hp
    by_cases hk : k' = k
    · rw [if_pos hk] at hp
      rcases List.mem_cons.mp hp with h | h
      · right; exact h
      · left; exact List.mem_cons_of_mem _ h
    · rw [if_neg hk] at hp
      rcases List.mem_cons.mp hp with h | h
      · left; rw [h]; exact List.mem_cons_self _ _
      · rcases ih h with h' | h'
        · left; exact List.mem_cons_of_mem _ h'
        · right; exact h'

/-- Any pair in the flat map after folding assignments was there before or
is one of the assigned pairs. -/
theorem mem_insertAll (l : List (String × Json)) (fm : FlatMap)
    (p : String × Json) (hp : p ∈ insertAll fm l) : p ∈ fm ∨ p ∈ l := by
  induction l generalizing fm with
  | nil => left; exact hp
  | cons q rest ih =>
    rcases ih (insertFM fm q.1 q.2) hp with h | h
    · rcases mem_insertFM fm q.1 q.2 p h with h' | h'
      · left; exact h'
      · right; rw [h']; exact List.mem_cons_self _ _
    · right; exact List.mem_cons_of_mem _ h

/-- Function `Flatten` always succeeds and runs the mapping loop on a fresh map. -/
theorem Flatten_eq (nested : List (String × Json)) (pfx : String) (km : KeyMerger) :
    Flatten nested pfx km = some (flattenFields km true [] nested pfx) := by
  unfold Flatten
  rw [flattenGo]

/-- Function `Flatten` folds the entry list of the traversal into a fresh map. -/
theorem Flatten_entries (nested : List (String × Json)) (pfx : String) (km : KeyMerger) :
    Flatten nested pfx km = some (insertAll [] (entriesFields km true nested pfx)) := by
  rw [Flatten_eq, flattenFields_eq_insertAll]

/-- If the first character after leading whitespace is not `{` (or there is
none), the `^\s*\{` pre-check fails. -/
theorem isJsonMap_eq_false (s : String)
    (h : (s.toList.dropWhile goRegexpSpace).head? ≠ some '{') :
    isJsonMap s = false := by
  unfold isJsonMap
  cases hd : s.toList.dropWhile goRegexpSpace with
  | nil => rfl
  | cons c rest =>
    rw [hd] at h
    simp only [List.head?_cons, ne_eq, Option.some.injEq] at h
    simp [h]

/-- On a root-level field list whose values are all scalars, a separator
style composes each key as `"" + k = k`, so the entry list is the field
list itself. -/
theorem entriesFields_root_scalars (style : SeparatorStyle)
    (fields : List (String × Json))
    (hsc : ∀ p ∈ fields, p.2.isScalar = true) :
    entriesFields style.MergeKeys true fields "" = fields := by
  induction fields with
  | nil => rw [entriesFields]
  | cons q rest ih =>
    obtain ⟨k, v⟩ := q
    rw [entriesFields]
    have hk : style.MergeKeys true "" k = k := by
      rw [SeparatorStyle.MergeKeys]
      simp
    rw [hk, entriesAssign_scalar _ _ _ (hsc (k, v) (List.mem_cons_self _ _)),
      ih (fun p hp => hsc p (List.mem_cons_of_mem _ hp))]
    rfl

/-! ## Claims -/

/-- Claim C1: every value stored in the flat map returned by `Flatten` is
a scalar (never a nested mapping or sequence); containers are always
recursed into and only non-container sub-values are assigned. -/
theorem flatten_values_are_scalars (nested : List (String × Json))
    (pfx : String) (km : KeyMerger) (fm : FlatMap)
    (h : Flatten nested pfx km = some fm) : allValuesScalar fm = true := by
  rw [Flatten_entries] at h
  injection h with h
  subst h
  rw [allValuesScalar, List.all_eq_true]
  intro p hp
  rcases mem_insertAll _ _ p hp with h' | h'
  · exact absurd h' (List.not_mem_nil p)
  · exact entriesFields_values_scalar km true nested pfx p h'

/-- Witness for C1 at `{"a":{"b":"c"},"l":[null]}` with the dot style. -/
theorem flatten_values_are_scalars_witness :
    allValuesScalar [("a.b", Json.str "c"), ("l.0", Json.null)] = true :=
  flatten_values_are_scalars
    [("a", Json.obj [("b", Json.str "c")]), ("l", Json.arr [Json.null])] ""
    DotStyle.MergeKeys [("a.b", Json.str "c"), ("l.0", Json.null)]
    (by simp [Flatten, flattenGo, flattenFields, flattenElems, assignGo,
      insertFM, SeparatorStyle.MergeKeys, DotStyle, Nat.repr, Nat.toDigits,
      Nat.toDigitsCore, Nat.digitChar, List.asString])

/-- Claim C2: a non-root `MergeKeys` call returns
`parentKey + Before + Middle + childKey + After`; the four presets give
`a.b`, `a/b`, `a[b]`, `a_b`; and `{"a":{"b":{"c":{"d":"e"}}}}` with empty
prefix flattens to `{"a.b.c.d":"e"}` (dot), `{"a/b/c/d":"e"}` (path) and
`{"a[b][c][d]":"e"}` (Rails). -/
theorem separator_styles_compose :
    (∀ (style : SeparatorStyle) (k sk : String),
      style.MergeKeys false k sk = k ++ style.Before ++ style.Middle ++ sk ++ style.After)
    ∧ DotStyle.MergeKeys false "a" "b" = "a.b"
    ∧ PathStyle.MergeKeys false "a" "b" = "a/b"
    ∧ RailsStyle.MergeKeys false "a" "b" = "a[b]"
    ∧ UnderscoreStyle.MergeKeys false "a" "b" = "a_b"
    ∧ Flatten [("a", Json.obj [("b", Json.obj [("c", Json.obj [("d", Json.str "e")])])])]
        "" DotStyle.MergeKeys = some [("a.b.c.d", Json.str "e")]
    ∧ Flatten [("a", Json.obj [("b", Json.obj [("c", Json.obj [("d", Json.str "e")])])])]
        "" PathStyle.MergeKeys = some [("a/b/c/d", Json.str "e")]
    ∧ Flatten [("a", Json.obj [("b", Json.obj [("c", Json.obj [("d", Json.str "e")])])])]
        "" RailsStyle.MergeKeys = some [("a[b][c][d]", Json.str "e")] := by
  refine ⟨fun style k sk => rfl, rfl, rfl, rfl, rfl, ?_, ?_, ?_⟩ <;>
    simp [Flatten, flattenGo, flattenFields, flattenElems, assignGo, insertFM,
      SeparatorStyle.MergeKeys, DotStyle, PathStyle, RailsStyle]

/-- Claim C3: each sequence element's path segment is its 0-based index in
decimal, and the recursion continues with the root flag off;
`{"alist":["a","b","c"]}` flattens under the dot style to
`{"alist.0":"a","alist.1":"b","alist.2":"c"}` and `{"alist":[{"d":"x"}]}`
to `{"alist.0.d":"x"}`. -/
theorem sequence_elements_indexed_decimal :
    (∀ (km : KeyMerger) (top : Bool) (fm : FlatMap) (v : Json)
      (rest : List Json) (pfx : String) (i : Nat),
      flattenElems km top fm (v :: rest) pfx i =
        flattenElems km top (assignGo km fm (km top pfx (Nat.repr i)) v) rest pfx (i + 1))
    ∧ (∀ (km : KeyMerger) (fm : FlatMap) (newKey : String) (elems : List Json),
      assignGo km fm newKey (Json.arr elems) = flattenElems km false fm elems newKey 0)
    ∧ Flatten [("alist", Json.arr [Json.str "a", Json.str "b", Json.str "c"])]
        "" DotStyle.MergeKeys
        = some [("alist.0", Json.str "a"), ("alist.1", Json.str "b"), ("alist.2", Json.str "c")]
    ∧ Flatten [("alist", Json.arr [Json.obj [("d", Json.str "x")]])] "" DotStyle.MergeKeys
        = some [("alist.0.d", Json.str "x")] := by
  refine ⟨fun km top fm v rest pfx i => by rw [flattenElems],
    fun km fm newKey elems => by rw [assignGo, flattenGo], ?_, ?_⟩ <;>
    simp [Flatten, flattenGo, flattenFields, flattenElems, assignGo, insertFM,
      SeparatorStyle.MergeKeys, DotStyle, Nat.repr, Nat.toDigits,
      Nat.toDigitsCore, Nat.digitChar, List.asString]

/-- Claim C4: a root call of `MergeKeys` returns `parentKey + childKey`
with no separator, so a caller-supplied prefix is prepended verbatim;
`{"a":{"b":"c"}}` with prefix `"p:"` and the dot style flattens to
`{"p:a.b":"c"}`. -/
theorem root_merge_prepends_prefix :
    (∀ (style : SeparatorStyle) (k sk : String), style.MergeKeys true k sk = k ++ sk)
    ∧ Flatten [("a", Json.obj [("b", Json.str "c")])] "p:" DotStyle.MergeKeys
        = some [("p:a.b", Json.str "c")] := by
  refine ⟨fun style k sk => rfl, ?_⟩
  simp [Flatten, flattenGo, flattenFields, flattenElems, assignGo, insertFM,
    SeparatorStyle.MergeKeys, DotStyle]

/-- Claim C5, counterexample: on input `null`, `FlattenString` does not
succeed with the empty object — it returns `NotValidJsonInputError`, even
under a deserializer that would accept `null` as an empty map. -/
theorem flattenString_null_counterexample :
    FlattenStringGo (fun _ => some []) "null" "" DotStyle.MergeKeys
      = FlattenStringResult.notValidJsonInputError
    ∧ FlattenStringGo (fun _ => some []) "null" "" DotStyle.MergeKeys
      ≠ FlattenStringResult.ok [] := by
  refine ⟨rfl, ?_⟩
  rw [show FlattenStringGo (fun _ => some []) "null" "" DotStyle.MergeKeys
    = FlattenStringResult.notValidJsonInputError from rfl]
  exact fun h => FlattenStringResult.noConfusion h

/-- Claim C5, amended: the literal `null` input is rejected by the
`^\s*\{` pre-check with `NotValidJsonInputError`, for every deserializer,
prefix and policy — the pre-1.0.1 legacy acceptance is not preserved. -/
theorem flattenString_null_rejected
    (unmarshal : String → Option (List (String × Json)))
    (pfx : String) (km : KeyMerger) :
    FlattenStringGo unmarshal "null" pfx km
      = FlattenStringResult.notValidJsonInputError := by
  unfold FlattenStringGo
  rw [show isJsonMap "null" = false from rfl]
  rfl

/-- Claim C6: any input whose first character after leading whitespace is
not `{` (including the empty string) is rejected by `FlattenString` with
`NotValidJsonInputError`, for every deserializer, prefix and policy — in
particular no flat map is ever returned for such input. -/
theorem flattenString_rejects_nonmap
    (unmarshal : String → Option (List (String × Json)))
    (s pfx : String) (km : KeyMerger)
    (h : (s.toList.dropWhile goRegexpSpace).head? ≠ some '{') :
    FlattenStringGo unmarshal s pfx km
      = FlattenStringResult.notValidJsonInputError := by
  unfold FlattenStringGo
  rw [isJsonMap_eq_false s h]
  rfl

/-- Witness for C6 at the array input `[1,2]`. -/
theorem flattenString_rejects_nonmap_witness :
    ("[1,2]".toList.dropWhile goRegexpSpace).head? ≠ some '{'
    ∧ FlattenStringGo (fun _ => some []) "[1,2]" "" DotStyle.MergeKeys
      = FlattenStringResult.notValidJsonInputError :=
  ⟨by decide, flattenString_rejects_nonmap (fun _ => some []) "[1,2]" ""
    DotStyle.MergeKeys (by decide)⟩

/-- Claim C7, counterexample: the identity round-trip fails for a custom
(non-separator) policy — the constant policy `"X"` maps `{"a":"b"}` with
empty prefix to `{"X":"b"}`, not to itself. -/
theorem flatten_identity_counterexample :
    Flatten [("a", Json.str "b")] "" (fun _ _ _ => "X")
      ≠ some [("a", Json.str "b")] := by
  rw [show Flatten [("a", Json.str "b")] "" (fun _ _ _ => "X")
    = some [("X", Json.str "b")] from by
      simp [Flatten, flattenGo, flattenFields, assignGo, insertFM]]
  simp

/-- Claim C7, amended: for every separator-family policy (whose root call
returns `parentKey + childKey`), a mapping whose values are all scalars
flattens with empty prefix to itself. -/
theorem flatten_scalars_identity (style : SeparatorStyle)
    (fields : List (String × Json))
    (hnd : (fields.map Prod.fst).Nodup)
    (hsc : ∀ p ∈ fields, p.2.isScalar = true) :
    Flatten fields "" style.MergeKeys = some fields := by
  rw [Flatten_entries, entriesFields_root_scalars style fields hsc,
    insertAll_of_disjoint fields [] hnd (by simp)]
  rfl

/-- Witness for C7 (amended) at `{"a":"b"}` with the dot style. -/
theorem flatten_scalars_identity_witness :
    Flatten [("a", Json.str "b")] "" DotStyle.MergeKeys
      = some [("a", Json.str "b")] :=
  flatten_scalars_identity DotStyle [("a", Json.str "b")] (by decide) (by decide)

/-- Claim C8: when the policy composes pairwise-distinct flat keys for the
scalar leaves, the flat map returned by `Flatten` has exactly one entry
per scalar leaf of the input. -/
theorem flatten_cardinality (km : KeyMerger) (nested : List (String × Json))
    (pfx : String) (fm : FlatMap)
    (hnd : ((entriesFields km true nested pfx).map Prod.fst).Nodup)
    (h : Flatten nested pfx km = some fm) :
    fm.length = leafCountFields nested := by
  rw [Flatten_entries] at h
  injection h with h
  subst h
  rw [insertAll_of_disjoint _ [] hnd (by simp), List.nil_append]
  exact entriesFields_length km true nested pfx

/-- Witness for C8 at `{"a":{"b":"x"},"c":"y"}` with the dot style. -/
theorem flatten_cardinality_witness :
    (((entriesFields DotStyle.MergeKeys true
        [("a", Json.obj [("b", Json.str "x")]), ("c", Json.str "y")] "").map
        Prod.fst).Nodup)
    ∧ ([("a.b", Json.str "x"), ("c", Json.str "y")] : FlatMap).length
        = leafCountFields [("a", Json.obj [("b", Json.str "x")]), ("c", Json.str "y")] :=
  ⟨by simp [entriesFields, entriesAssign, SeparatorStyle.MergeKeys, DotStyle],
    flatten_cardinality DotStyle.MergeKeys
      [("a", Json.obj [("b", Json.str "x")]), ("c", Json.str "y")] ""
      [("a.b", Json.str "x"), ("c", Json.str "y")]
      (by simp [entriesFields, entriesAssign, SeparatorStyle.MergeKeys, DotStyle])
      (by simp [Flatten, flattenGo, flattenFields, flattenElems, assignGo,
        insertFM, SeparatorStyle.MergeKeys, DotStyle])⟩

/-- Claim C9: `NotValidInputError` is unreachable from `Flatten`: every
top-level mapping flattens to `some` flat map under every policy, and the
internal recursion, which is only ever invoked on mappings and sequences,
never raises the error flag on such values. -/
theorem flatten_never_invalid :
    (∀ (nested : List (String × Json)) (pfx : String) (km : KeyMerger),
      ∃ fm, Flatten nested pfx km = some fm)
    ∧ (∀ (km : KeyMerger) (fm : FlatMap) (v : Json) (pfx : String),
      v.isScalar = false → (flattenGo km false fm v pfx).2 = false) := by
  constructor
  · intro nested pfx km
    exact ⟨_, Flatten_eq nested pfx km⟩
  · intro km fm v pfx hv
    cases v with
    | obj fields => rw [flattenGo]
    | arr elems => rw [flattenGo]
    | null => simp [Json.isScalar] at hv
    | bool b => simp [Json.isScalar] at hv
    | str s => simp [Json.isScalar] at hv
    | num n => simp [Json.isScalar] at hv

/-- Witness for C9 on the container `{}` recursed into at a non-root
position. -/
theorem flatten_never_invalid_witness :
    (Json.obj []).isScalar = false
    ∧ (flattenGo DotStyle.MergeKeys false [] (Json.obj []) "").2 = false :=
  ⟨rfl, flatten_never_invalid.2 DotStyle.MergeKeys [] (Json.obj []) "" rfl⟩

/-- Claim C10: an empty mapping or sequence sub-value contributes no
entries and its key vanishes (`assign` leaves the flat map unchanged);
`Flatten` of the empty mapping, and of `{"a":{}}` or `{"a":[]}`, is the
empty flat map. -/
theorem empty_containers_vanish :
    (∀ (km : KeyMerger) (fm : FlatMap) (newKey : String),
      assignGo km fm newKey (Json.obj []) = fm)
    ∧ (∀ (km : KeyMerger) (fm : FlatMap) (newKey : String),
      assignGo km fm newKey (Json.arr []) = fm)
    ∧ (∀ (pfx : String) (km : KeyMerger), Flatten [] pfx km = some [])
    ∧ Flatten [("a", Json.obj [])] "" DotStyle.MergeKeys = some []
    ∧ Flatten [("a", Json.arr [])] "" DotStyle.MergeKeys = some [] := by
  refine ⟨fun km fm newKey => by simp [assignGo, flattenGo, flattenFields],
    fun km fm newKey => by simp [assignGo, flattenGo, flattenElems],
    fun pfx km => by rw [Flatten_eq, flattenFields], ?_, ?_⟩ <;>
    simp [Flatten, flattenGo, flattenFields, flattenElems, assignGo, insertFM,
      SeparatorStyle.MergeKeys, DotStyle]

end FlattenGo
